import Mathlib

/-!
Shallow embedding of the `rid` package (15-byte k-sortable identifiers with a
custom base-32 text codec), translated from the Go source.

Identifiers (`ID [15]byte`) are modelled as `List ℕ` whose elements are byte
values (`< 256`); text (`[]byte` in Go) is modelled as `List ℕ` of ASCII codes.
Byte extraction `byte(x >> k)` is written `x / 2^k % 256`.
-/

namespace Rid

/-- binary representation length (`rawLen = 15`). -/
def rawLen : ℕ := 15

/-- base32 representation length (`encodedLen = 24`). -/
def encodedLen : ℕ := 24

/-- the custom Base32 character set, Crockford-inspired:
`"0123456789abcdefghjkmnpqrstvwxyz"`. -/
def charset : String := "0123456789abcdefghjkmnpqrstvwxyz"

/-- the bytes of a string (Go strings are byte slices; all chars here are ASCII). -/
def strBytes (s : String) : List ℕ := s.toList.map Char.toNat

/-- the charset as a list of byte values. -/
def charsetBytes : List ℕ := strBytes charset

/-- the decoding map `dec` built by `init`: `dec[charset[i]] = i`, every other
byte maps to the sentinel `0xFF`. -/
def dec (c : ℕ) : ℕ := (charsetBytes.findIdx? (· == c)).getD 255

/-- symbol-to-character step of `encoding.Encode`: `dst[j] = charset[b[j]]`. -/
def symChar (v : ℕ) : ℕ := charsetBytes.getD v 0

/-- one 5-byte group of `encoding/base32.Encode`: the eight 5-bit values
`b[0..7]` computed from `src[0..4]` by the standard-library shift/mask
sequence (`b0 = src0>>3`, `b1 = (src0<<2|src1>>6)&31`, ...). -/
def encGroup (s0 s1 s2 s3 s4 : ℕ) : List ℕ :=
  [s0 / 8,
   s0 % 8 * 4 + s1 / 64,
   s1 / 2 % 32,
   s1 % 2 * 16 + s2 / 16,
   s2 % 16 * 2 + s3 / 128,
   s3 / 4 % 32,
   s3 % 4 * 8 + s4 / 32,
   s4 % 32]

/-- the 5-bit symbol stream of `encoding.Encode` over full 5-byte groups.
IDs are always `rawLen = 15` bytes (a multiple of 5), so the std-lib's
partial-group tail never arises and is not modelled. -/
def encodeSyms : List ℕ → List ℕ
  | s0 :: s1 :: s2 :: s3 :: s4 :: rest => encGroup s0 s1 s2 s3 s4 ++ encodeSyms rest
  | _ => []

/-- `encode(dst, id)` = `encoding.Encode(dst, id)`: 5-bit symbols mapped
through the charset. -/
def encode (id : List ℕ) : List ℕ := (encodeSyms id).map symChar

/-- one 8-symbol group of `encoding/base32.Decode`: the five output bytes
(`dst[0] = c0<<3|c1>>2`, ... each truncated to a byte). -/
def decGroup (c0 c1 c2 c3 c4 c5 c6 c7 : ℕ) : List ℕ :=
  [(c0 * 8 + c1 / 4) % 256,
   (c1 % 4 * 64 + c2 * 2 + c3 / 16) % 256,
   (c3 % 16 * 16 + c4 / 2) % 256,
   (c4 % 2 * 128 + c5 * 4 + c6 / 8) % 256,
   (c6 % 8 * 32 + c7) % 256]

/-- the byte stream rebuilt from 5-bit symbols over full 8-symbol groups
(inputs here are always `encodedLen = 24` symbols, a multiple of 8). -/
def decodeSyms : List ℕ → List ℕ
  | c0 :: c1 :: c2 :: c3 :: c4 :: c5 :: c6 :: c7 :: rest =>
      decGroup c0 c1 c2 c3 c4 c5 c6 c7 ++ decodeSyms rest
  | _ => []

/-- `decode(id, src)` = `encoding.Decode`: fails on any character outside the
charset, otherwise unpacks the 5-bit values. -/
def decode (src : List ℕ) : Option (List ℕ) :=
  if src.any (fun c => dec c == 255) then none
  else some (decodeSyms (src.map dec))

/-- the all-zero `nilID`. -/
def nilID : List ℕ := List.replicate rawLen 0

/-- `IsNil`: `id == nilID`. -/
def IsNil (id : List ℕ) : Bool := id == nilID

/-- `NewWithTimestamp(ts)`: 6-byte big-endian timestamp, 1 signature byte,
then the 8 big-endian bytes of the `randUint64()` draw `rv` (offsets 7–14).
The signature byte and the random draw are parameters (they are runtime
inputs: the process signature and the fastrand output). -/
def NewWithTimestamp (ts sig rv : ℕ) : List ℕ :=
  [ts / 2 ^ 40 % 256,
   ts / 2 ^ 32 % 256,
   ts / 2 ^ 24 % 256,
   ts / 2 ^ 16 % 256,
   ts / 2 ^ 8 % 256,
   ts % 256,
   sig % 256,
   rv / 2 ^ 56 % 256,
   rv / 2 ^ 48 % 256,
   rv / 2 ^ 40 % 256,
   rv / 2 ^ 32 % 256,
   rv / 2 ^ 24 % 256,
   rv / 2 ^ 16 % 256,
   rv / 2 ^ 8 % 256,
   rv % 256]

/-- `Random()`: `b := id[7:]`, then `b[0]<<40 | b[1]<<32 | ... | b[5]`
(bytes 7–12; the or of disjoint shifted bytes is their sum). -/
def Random (id : List ℕ) : ℕ :=
  let b := id.drop 7
  b.getD 0 0 * 2 ^ 40 + b.getD 1 0 * 2 ^ 32 + b.getD 2 0 * 2 ^ 24 +
    b.getD 3 0 * 2 ^ 16 + b.getD 4 0 * 2 ^ 8 + b.getD 5 0

/-- `Timestamp()`: big-endian value of bytes 0–5. -/
def Timestamp (id : List ℕ) : ℕ :=
  id.getD 0 0 * 2 ^ 40 + id.getD 1 0 * 2 ^ 32 + id.getD 2 0 * 2 ^ 24 +
    id.getD 3 0 * 2 ^ 16 + id.getD 4 0 * 2 ^ 8 + id.getD 5 0

/-- `FromBytes(b)`: length must be exactly `rawLen`, then the bytes are copied
verbatim; on failure Go returns `(nilID, ErrInvalidID)`, modelled as `none`. -/
def FromBytes (b : List ℕ) : Option (List ℕ) :=
  if b.length ≠ rawLen then none else some b

/-- `UnmarshalText(text)`: length must be `encodedLen`; every byte must have a
non-sentinel entry in `dec`; then `decode` runs (it cannot fail after the
pre-check). Errors are `none`. -/
def UnmarshalText (text : List ℕ) : Option (List ℕ) :=
  if text.length ≠ encodedLen then none
  else if text.any (fun c => dec c == 255) then none
  else decode text

/-- `FromString(str)`: delegates to `UnmarshalText`. -/
def FromString (str : List ℕ) : Option (List ℕ) := UnmarshalText str

/-- `bytes.Compare` from the Go standard library: lexicographic byte
comparison returning -1, 0 or 1, a strict prefix being smaller. -/
def bytesCompare : List ℕ → List ℕ → Int
  | [], [] => 0
  | [], _ :: _ => -1
  | _ :: _, [] => 1
  | a :: as, b :: bs => if a < b then -1 else if b < a then 1 else bytesCompare as bs

/-- `Compare(other)`: `bytes.Compare(id[:5], other[:5])`. -/
def Compare (id other : List ℕ) : Int := bytesCompare (id.take 5) (other.take 5)

/-- `sorter.Less(i, j)`: `s[i].Compare(s[j]) < 0`. -/
def Less (a b : List ℕ) : Bool := Compare a b < 0

/-- insertion step for `Sort`. -/
def sortInsert (x : List ℕ) : List (List ℕ) → List (List ℕ)
  | [] => [x]
  | y :: ys => if Less x y then x :: y :: ys else y :: sortInsert x ys

/-- `Sort(ids)`: `sort.Sort(sorter(ids))` (named `SortIDs` here since `Sort`
is reserved in Lean). The standard library's comparison sort is modelled as an
insertion sort over the same `Less` relation; both produce a permutation in
which no element is `Less` than a predecessor, and on inputs whose keys are
strictly ordered by `Less` every comparison sort yields the same (unique)
result. -/
def SortIDs : List (List ℕ) → List (List ℕ)
  | [] => []
  | x :: xs => sortInsert x (SortIDs xs)

/-- `MarshalJSON`: the nil ID serializes as the unquoted token `null`; any
other ID as its 24-character encoding wrapped in double quotes. -/
def MarshalJSON (id : List ℕ) : List ℕ :=
  if id = nilID then strBytes "null"
  else 34 :: encode id ++ [34]

/-- result of `UnmarshalJSON`: normal return, error return, or a runtime
panic (out-of-range slice). -/
inductive JsonResult where
  | ok (id : List ℕ)
  | err
  | panicked
deriving DecidableEq

/-- `UnmarshalJSON(text)`: the token `null` yields the nil ID; otherwise Go
evaluates `text[1 : len(text)-1]`, which panics unless `1 ≤ len(text)-1`
(i.e. `len(text) ≥ 2`), and feeds the slice to `UnmarshalText`. -/
def UnmarshalJSON (text : List ℕ) : JsonResult :=
  if text = strBytes "null" then .ok nilID
  else if 2 ≤ text.length then
    match UnmarshalText ((text.drop 1).take (text.length - 2)) with
    | some id => .ok id
    | none => .err
  else .panicked

/-- the shapes a `driver.Value` passed to `Scan` can take: a string, a byte
slice, SQL `NULL`, or any other type. -/
inductive ScanValue where
  | str (s : List ℕ)
  | byteSlice (b : List ℕ)
  | null
  | other

/-- result of `Scan`: success, the `ErrInvalidID` error from `UnmarshalText`,
or the unsupported-type error of the default case. -/
inductive ScanResult where
  | ok (id : List ℕ)
  | invalid
  | typeMismatch
deriving DecidableEq

/-- `Scan(value)`: strings and byte slices go through `UnmarshalText`, SQL
`NULL` yields the nil ID with no error, anything else is an
unsupported-type error. -/
def Scan : ScanValue → ScanResult
  | .str s => match UnmarshalText s with
              | some id => .ok id
              | none => .invalid
  | .byteSlice b => match UnmarshalText b with
                    | some id => .ok id
                    | none => .invalid
  | .null => .ok nilID
  | .other => .typeMismatch

/-! ### Helper lemmas about the charset and decode table -/

theorem charsetBytes_explicit :
    charsetBytes = [48, 49, 50, 51, 52, 53, 54, 55, 56, 57, 97, 98, 99, 100,
      101, 102, 103, 104, 106, 107, 109, 110, 112, 113, 114, 115, 116, 118,
      119, 120, 121, 122] := by decide

theorem dec_symChar : ∀ v : ℕ, v < 32 → dec (symChar v) = v := by decide

theorem symChar_dec_of_mem {c : ℕ} (h : c ∈ charsetBytes) :
    symChar (dec c) = c ∧ dec c < 32 := by
  rw [charsetBytes_explicit] at h
  fin_cases h <;> decide

theorem dec_eq_255_of_not_mem {c : ℕ} (h : c ∉ charsetBytes) : dec c = 255 := by
  have hn : charsetBytes.findIdx? (· == c) = none := by
    rw [List.findIdx?_eq_none_iff]
    intro x hx
    simp only [beq_eq_false_iff_ne, ne_eq]
    exact fun e => h (e ▸ hx)
  simp [dec, hn]

theorem mem_of_dec_ne_255 {c : ℕ} (h : dec c ≠ 255) : c ∈ charsetBytes := by
  by_contra hc
  exact h (dec_eq_255_of_not_mem hc)

/-- mapping 5-bit symbols through the charset and back through the decode
table is the identity, and never hits the invalid sentinel. -/
theorem map_symChar_dec (syms : List ℕ) (h : ∀ v ∈ syms, v < 32) :
    ((syms.map symChar).map dec = syms ∧
      (syms.map symChar).any (fun c => dec c == 255) = false) := by
  induction syms with
  | nil => simp
  | cons v vs ih =>
    have hv : v < 32 := h v (by simp)
    have hd : dec (symChar v) = v := dec_symChar v hv
    have hrest := ih (fun x hx => h x (by simp [hx]))
    simp only [List.map_cons, List.any_cons, hd, hrest.1, hrest.2]
    simp [show v ≠ 255 by omega]

/-- every list of length `rawLen` is an explicit 15-element list. -/
theorem exists_eq_fifteen (B : List ℕ) (h : B.length = rawLen) :
    ∃ b0 b1 b2 b3 b4 b5 b6 b7 b8 b9 b10 b11 b12 b13 b14,
      B = [b0, b1, b2, b3, b4, b5, b6, b7, b8, b9, b10, b11, b12, b13, b14] := by
  rcases B with _ | ⟨b0, B⟩; · simp [rawLen] at h
  rcases B with _ | ⟨b1, B⟩; · simp [rawLen] at h
  rcases B with _ | ⟨b2, B⟩; · simp [rawLen] at h
  rcases B with _ | ⟨b3, B⟩; · simp [rawLen] at h
  rcases B with _ | ⟨b4, B⟩; · simp [rawLen] at h
  rcases B with _ | ⟨b5, B⟩; · simp [rawLen] at h
  rcases B with _ | ⟨b6, B⟩; · simp [rawLen] at h
  rcases B with _ | ⟨b7, B⟩; · simp [rawLen] at h
  rcases B with _ | ⟨b8, B⟩; · simp [rawLen] at h
  rcases B with _ | ⟨b9, B⟩; · simp [rawLen] at h
  rcases B with _ | ⟨b10, B⟩; · simp [rawLen] at h
  rcases B with _ | ⟨b11, B⟩; · simp [rawLen] at h
  rcases B with _ | ⟨b12, B⟩; · simp [rawLen] at h
  rcases B with _ | ⟨b13, B⟩; · simp [rawLen] at h
  rcases B with _ | ⟨b14, B⟩; · simp [rawLen] at h
  obtain rfl : B = [] := by simpa [rawLen] using h
  exact ⟨b0, b1, b2, b3, b4, b5, b6, b7, b8, b9, b10, b11, b12, b13, b14, rfl⟩

/-- every list of length `encodedLen` is an explicit 24-element list. -/
theorem exists_eq_twentyfour (S : List ℕ) (h : S.length = encodedLen) :
    ∃ c0 c1 c2 c3 c4 c5 c6 c7 c8 c9 c10 c11 c12 c13 c14 c15 c16 c17 c18 c19
      c20 c21 c22 c23,
      S = [c0, c1, c2, c3, c4, c5, c6, c7, c8, c9, c10, c11, c12, c13, c14,
        c15, c16, c17, c18, c19, c20, c21, c22, c23] := by
  rcases S with _ | ⟨c0, S⟩; · simp [encodedLen] at h
  rcases S with _ | ⟨c1, S⟩; · simp [encodedLen] at h
  rcases S with _ | ⟨c2, S⟩; · simp [encodedLen] at h
  rcases S with _ | ⟨c3, S⟩; · simp [encodedLen] at h
  rcases S with _ | ⟨c4, S⟩; · simp [encodedLen] at h
  rcases S with _ | ⟨c5, S⟩; · simp [encodedLen] at h
  rcases S with _ | ⟨c6, S⟩; · simp [encodedLen] at h
  rcases S with _ | ⟨c7, S⟩; · simp [encodedLen] at h
  rcases S with _ | ⟨c8, S⟩; · simp [encodedLen] at h
  rcases S with _ | ⟨c9, S⟩; · simp [encodedLen] at h
  rcases S with _ | ⟨c10, S⟩; · simp [encodedLen] at h
  rcases S with _ | ⟨c11, S⟩; · simp [encodedLen] at h
  rcases S with _ | ⟨c12, S⟩; · simp [encodedLen] at h
  rcases S with _ | ⟨c13, S⟩; · simp [encodedLen] at h
  rcases S with _ | ⟨c14, S⟩; · simp [encodedLen] at h
  rcases S with _ | ⟨c15, S⟩; · simp [encodedLen] at h
  rcases S with _ | ⟨c16, S⟩; · simp [encodedLen] at h
  rcases S with _ | ⟨c17, S⟩; · simp [encodedLen] at h
  rcases S with _ | ⟨c18, S⟩; · simp [encodedLen] at h
  rcases S with _ | ⟨c19, S⟩; · simp [encodedLen] at h
  rcases S with _ | ⟨c20, S⟩; · simp [encodedLen] at h
  rcases S with _ | ⟨c21, S⟩; · simp [encodedLen] at h
  rcases S with _ | ⟨c22, S⟩; · simp [encodedLen] at h
  rcases S with _ | ⟨c23, S⟩; · simp [encodedLen] at h
  obtain rfl : S = [] := by simpa [encodedLen] using h
  exact ⟨c0, c1, c2, c3, c4, c5, c6, c7, c8, c9, c10, c11, c12, c13, c14, c15,
    c16, c17, c18, c19, c20, c21, c22, c23, rfl⟩

/-- the 5-bit symbols produced from bytes are all below 32. -/
theorem encodeSyms_lt_32 (B : List ℕ) (hlen : B.length = rawLen)
    (hB : ∀ b ∈ B, b < 256) : ∀ v ∈ encodeSyms B, v < 32 := by
  obtain ⟨b0, b1, b2, b3, b4, b5, b6, b7, b8, b9, b10, b11, b12, b13, b14, rfl⟩ :=
    exists_eq_fifteen B hlen
  simp only [List.mem_cons, List.mem_singleton, forall_eq_or_imp, forall_eq] at hB
  intro v hv
  simp [encodeSyms, encGroup] at hv
  omega

/-- unpacking the 5-bit symbols of a 15-byte value restores the bytes. -/
theorem decodeSyms_encodeSyms (B : List ℕ) (hlen : B.length = rawLen)
    (hB : ∀ b ∈ B, b < 256) : decodeSyms (encodeSyms B) = B := by
  obtain ⟨b0, b1, b2, b3, b4, b5, b6, b7, b8, b9, b10, b11, b12, b13, b14, rfl⟩ :=
    exists_eq_fifteen B hlen
  simp only [List.mem_cons, List.mem_singleton, forall_eq_or_imp, forall_eq] at hB
  simp [encodeSyms, encGroup, decodeSyms, decGroup]
  omega

/-- repacking 24 valid 5-bit symbols reproduces them. -/
theorem encodeSyms_decodeSyms (D : List ℕ) (hlen : D.length = encodedLen)
    (hD : ∀ v ∈ D, v < 32) : encodeSyms (decodeSyms D) = D := by
  obtain ⟨c0, c1, c2, c3, c4, c5, c6, c7, c8, c9, c10, c11, c12, c13, c14, c15,
    c16, c17, c18, c19, c20, c21, c22, c23, rfl⟩ := exists_eq_twentyfour D hlen
  simp only [List.mem_cons, List.mem_singleton, forall_eq_or_imp, forall_eq] at hD
  simp [encodeSyms, encGroup, decodeSyms, decGroup]
  omega

/-- decoding the encoding of a 15-byte value succeeds and restores the bytes. -/
theorem unmarshal_encode (B : List ℕ) (hlen : B.length = rawLen)
    (hB : ∀ b ∈ B, b < 256) : UnmarshalText (encode B) = some B := by
  have hsym := encodeSyms_lt_32 B hlen hB
  obtain ⟨hmap, hany⟩ := map_symChar_dec (encodeSyms B) hsym
  have hslen : (encodeSyms B).length = 24 := by
    obtain ⟨b0, b1, b2, b3, b4, b5, b6, b7, b8, b9, b10, b11, b12, b13, b14, rfl⟩ :=
      exists_eq_fifteen B hlen
    simp [encodeSyms, encGroup]
  rw [UnmarshalText, if_neg (by simp [encode, hslen, encodedLen]),
    if_neg (by simp [encode, hany]), decode, if_neg (by simp [encode, hany])]
  rw [encode, hmap, decodeSyms_encodeSyms B hlen hB]

/-- a 24-character alphabet-valid text decodes without error, and re-encoding
the decoded bytes reproduces the text. -/
theorem encode_unmarshal (S : List ℕ) (hlen : S.length = encodedLen)
    (hS : ∀ c ∈ S, c ∈ charsetBytes) :
    UnmarshalText S = some (decodeSyms (S.map dec)) ∧
      encode (decodeSyms (S.map dec)) = S := by
  have hvalid : ∀ c ∈ S, dec c < 32 ∧ symChar (dec c) = c := by
    intro c hc
    have := symChar_dec_of_mem (hS c hc)
    exact ⟨this.2, this.1⟩
  have hany : S.any (fun c => dec c == 255) = false := by
    rw [List.any_eq_false]
    intro c hc
    have := (hvalid c hc).1
    simp only [beq_iff_eq]
    omega
  have hmaplen : (S.map dec).length = encodedLen := by simp [hlen]
  have hmaplt : ∀ v ∈ S.map dec, v < 32 := by
    intro v hv
    obtain ⟨c, hc, rfl⟩ := List.mem_map.mp hv
    exact (hvalid c hc).1
  constructor
  · rw [UnmarshalText, if_neg (by simp [hlen]), if_neg (by simp [hany]),
      decode, if_neg (by simp [hany])]
  · rw [encode, encodeSyms_decodeSyms (S.map dec) hmaplen hmaplt,
      List.map_map]
    have : ∀ c ∈ S, (symChar ∘ dec) c = id c := by
      intro c hc
      simpa using (hvalid c hc).2
    rw [List.map_congr_left this, List.map_id]

/-- encoding a 15-byte identifier always yields 24 characters. -/
theorem encode_length (id : List ℕ) (h : id.length = rawLen) :
    (encode id).length = encodedLen := by
  obtain ⟨b0, b1, b2, b3, b4, b5, b6, b7, b8, b9, b10, b11, b12, b13, b14, rfl⟩ :=
    exists_eq_fifteen id h
  simp [encode, encodeSyms, encGroup, encodedLen]

theorem bytesCompare_self : ∀ l : List ℕ, bytesCompare l l = 0 := by
  intro l
  induction l with
  | nil => rfl
  | cons a as ih => simp [bytesCompare, ih]

/-! ### Claim theorems -/

/-- C1: the base-32 codec round-trips: decoding the encoding of any 15-byte
sequence yields the bytes back, and for any 24-character text drawn from the
32-symbol alphabet, decoding succeeds and re-encoding reproduces the text. -/
theorem codec_roundtrip :
    (∀ B : List ℕ, B.length = rawLen → (∀ b ∈ B, b < 256) →
        UnmarshalText (encode B) = some B) ∧
    (∀ S : List ℕ, S.length = encodedLen → (∀ c ∈ S, c ∈ charsetBytes) →
        ∃ B, UnmarshalText S = some B ∧ encode B = S) := by
  refine ⟨unmarshal_encode, fun S h1 h2 => ?_⟩
  obtain ⟨hu, he⟩ := encode_unmarshal S h1 h2
  exact ⟨_, hu, he⟩

theorem codec_roundtrip_witness :
    UnmarshalText (encode (List.replicate 15 3)) = some (List.replicate 15 3) ∧
    ∃ B, UnmarshalText (strBytes "0123456789abcdefghjkmnpq") = some B ∧
      encode B = strBytes "0123456789abcdefghjkmnpq" :=
  ⟨codec_roundtrip.1 _ (by decide) (by decide),
   codec_roundtrip.2 _ (by decide) (by decide)⟩

/-- C2: `Compare` is the byte-lexicographic comparison of the first 5 bytes
only; identifiers agreeing on bytes 0–4 compare equal regardless of the
trailing 10 bytes. -/
theorem compare_prefix_only (a b : List ℕ) (ha : a.length = rawLen)
    (hb : b.length = rawLen) :
    Compare a b = bytesCompare (a.take 5) (b.take 5) ∧
    ((∀ i, i < 5 → a.getD i 0 = b.getD i 0) → Compare a b = 0) := by
  refine ⟨rfl, fun hag => ?_⟩
  have h5 : a.take 5 = b.take 5 := by
    apply List.ext_getElem
    · simp [ha, hb, rawLen]
    · intro i h1 h2
      have hia : i < a.length := by simp [ha, rawLen] at h1 ⊢; omega
      have hib : i < b.length := by simp [hb, rawLen] at h2 ⊢; omega
      have hi : i < 5 := by simpa [ha, rawLen] using h1
      have := hag i hi
      rw [List.getD_eq_getElem a 0 hia, List.getD_eq_getElem b 0 hib] at this
      simpa [List.getElem_take] using this
  rw [Compare, h5, bytesCompare_self]

theorem compare_prefix_only_witness :
    Compare [1, 2, 3, 4, 5, 6, 7, 8, 9, 10, 11, 12, 13, 14, 15]
      [1, 2, 3, 4, 5, 99, 98, 97, 96, 95, 94, 93, 92, 91, 90] = 0 :=
  (compare_prefix_only _ _ (by decide) (by decide)).2 (by decide)

/-- C4: `FromBytes` rejects every input whose length is not 15 and copies any
15-byte input verbatim; `UnmarshalText` rejects every input whose length is
not 24. -/
theorem length_rejection :
    (∀ b : List ℕ, b.length ≠ rawLen → FromBytes b = none) ∧
    (∀ b : List ℕ, b.length = rawLen → FromBytes b = some b) ∧
    (∀ t : List ℕ, t.length ≠ encodedLen → UnmarshalText t = none) := by
  refine ⟨fun b hb => ?_, fun b hb => ?_, fun t ht => ?_⟩
  · simp [FromBytes, hb]
  · simp [FromBytes, hb]
  · simp [UnmarshalText, ht]

theorem length_rejection_witness :
    FromBytes [1, 2, 3] = none ∧
    FromBytes (List.replicate 15 7) = some (List.replicate 15 7) ∧
    UnmarshalText (strBytes "abc") = none :=
  ⟨length_rejection.1 _ (by decide), length_rejection.2.1 _ (by decide),
   length_rejection.2.2 _ (by decide)⟩

/-- C5: any 24-character text containing a character outside the 32-symbol
alphabet fails to decode, regardless of the character's position. -/
theorem char_rejection (t : List ℕ) (hlen : t.length = encodedLen) (c : ℕ)
    (hct : c ∈ t) (hc : c ∉ charsetBytes) : UnmarshalText t = none := by
  have h255 : dec c = 255 := dec_eq_255_of_not_mem hc
  have hany : t.any (fun x => dec x == 255) = true :=
    List.any_eq_true.mpr ⟨c, hct, by simp [h255]⟩
  rw [UnmarshalText, if_neg (by simp [hlen]), if_pos (by simp [hany])]

theorem char_rejection_witness :
    UnmarshalText (strBytes "!!!!!!!!!!!!!!!!!!!!!!!!") = none :=
  char_rejection _ (by decide) 33 (by decide) (by decide)

/-- C6 counterexample: decoding the 20-character text `9p4e2pv0yj3e8a215q4g`
does not yield any byte sequence: `FromString` rejects it. -/
theorem vector_9p4e_cex :
    (FromString (strBytes "9p4e2pv0yj3e8a215q4g")).isSome = false := by decide

/-- C6 amended: the spec's concrete vector has 20 characters, so under the
canonical 15-byte/24-character layout `FromString` rejects it with an error;
the corresponding valid 24-character vector `9p4e2pv0yj3e8a215q4g0000`
decodes to the byte sequence beginning 4d 88 e1 5b 60 f4 86 e4 28 41 2d c9
(extended with three zero bytes), and re-encoding those bytes reproduces that
text exactly. -/
theorem vector_9p4e_amended :
    (strBytes "9p4e2pv0yj3e8a215q4g").length = 20 ∧
    FromString (strBytes "9p4e2pv0yj3e8a215q4g") = none ∧
    FromString (strBytes "9p4e2pv0yj3e8a215q4g0000") =
      some [0x4d, 0x88, 0xe1, 0x5b, 0x60, 0xf4, 0x86, 0xe4, 0x28, 0x41, 0x2d,
        0xc9, 0, 0, 0] ∧
    encode [0x4d, 0x88, 0xe1, 0x5b, 0x60, 0xf4, 0x86, 0xe4, 0x28, 0x41, 0x2d,
      0xc9, 0, 0, 0] = strBytes "9p4e2pv0yj3e8a215q4g0000" := by decide

/-- C7 counterexample: the random accessor does not return the value drawn at
generation: for the draw 1 (a 48-bit representable value) the accessor
returns 0. -/
theorem random_field_cex : ¬ Random (NewWithTimestamp 0 0 1) = 1 := by decide

/-- C7 amended: generation writes all 8 big-endian bytes of the 64-bit random
draw into offsets 7–14; the accessor reads offsets 7–12 and therefore returns
the high 48 bits of the draw, which is always below 2^48. -/
theorem random_field_amended (ts sig rv : ℕ) :
    Random (NewWithTimestamp ts sig rv) = rv % 2 ^ 64 / 2 ^ 16 ∧
    Random (NewWithTimestamp ts sig rv) < 2 ^ 48 := by
  simp only [Random, NewWithTimestamp, List.drop_succ_cons, List.drop_zero,
    List.getD_cons_zero, List.getD_cons_succ]
  omega

theorem random_field_amended_witness :
    Random (NewWithTimestamp 5 6 (2 ^ 60 + 7)) = (2 ^ 60 + 7) % 2 ^ 64 / 2 ^ 16 ∧
    Random (NewWithTimestamp 5 6 (2 ^ 60 + 7)) < 2 ^ 48 :=
  random_field_amended 5 6 (2 ^ 60 + 7)

/-- C10: `UnmarshalJSON` panics (out-of-range slice `text[1 : len(text)-1]`)
for every input that is neither the token `null` nor at least 2 bytes long,
and returns normally (success or error) for all other inputs. -/
theorem unmarshalJSON_totality :
    (∀ t : List ℕ, t ≠ strBytes "null" → t.length < 2 →
        UnmarshalJSON t = JsonResult.panicked) ∧
    (∀ t : List ℕ, t = strBytes "null" ∨ 2 ≤ t.length →
        UnmarshalJSON t ≠ JsonResult.panicked) := by
  constructor
  · intro t hne hlen
    rw [UnmarshalJSON, if_neg hne, if_neg (by omega)]
  · intro t ht
    rw [UnmarshalJSON]
    by_cases he : t = strBytes "null"
    · simp [he]
    · rcases ht with rfl | hlen
      · exact absurd rfl he
      · rw [if_neg he, if_pos hlen]
        cases UnmarshalText ((t.drop 1).take (t.length - 2)) <;> simp

theorem unmarshalJSON_totality_witness :
    UnmarshalJSON [] = JsonResult.panicked ∧
    UnmarshalJSON (strBytes "null") ≠ JsonResult.panicked ∧
    UnmarshalJSON [34, 34] ≠ JsonResult.panicked :=
  ⟨unmarshalJSON_totality.1 _ (by decide) (by decide),
   unmarshalJSON_totality.2 _ (Or.inl rfl),
   unmarshalJSON_totality.2 _ (Or.inr (by decide))⟩

set_option maxHeartbeats 1000000 in
/-- two identifiers whose timestamps differ in the leading 40 of the 48
stored bits compare strictly, whatever their signature and random bytes. -/
theorem compare_new_lt (ts1 ts2 sig1 sig2 rv1 rv2 : ℕ)
    (h : ts1 % 2 ^ 48 / 2 ^ 8 < ts2 % 2 ^ 48 / 2 ^ 8) :
    Compare (NewWithTimestamp ts1 sig1 rv1) (NewWithTimestamp ts2 sig2 rv2) = -1 := by
  simp only [Compare, NewWithTimestamp, List.take_succ_cons, List.take_zero]
  simp only [bytesCompare]
  split_ifs <;> omega

theorem bytesCompare_swap :
    ∀ a b : List ℕ, bytesCompare a b = -1 → bytesCompare b a = 1 := by
  intro a
  induction a with
  | nil =>
    intro b h
    cases b with
    | nil => simp [bytesCompare] at h
    | cons y ys => simp [bytesCompare]
  | cons x xs ih =>
    intro b h
    cases b with
    | nil => simp [bytesCompare] at h
    | cons y ys =>
      simp only [bytesCompare] at h ⊢
      split_ifs at h ⊢ <;> first | rfl | omega | exact ih ys h

theorem compare_swap {a b : List ℕ} (h : Compare a b = -1) : Compare b a = 1 :=
  bytesCompare_swap _ _ h

/-- C3: identifiers generated from timestamps that differ in the leading 40
bits (after truncation to 48 bits) compare strictly in timestamp order, and
sorting three such identifiers inserted as [T3, T1, T2] yields [T1, T2, T3]. -/
theorem k_sortable :
    (∀ ts1 ts2 sig1 sig2 rv1 rv2 : ℕ,
        ts1 % 2 ^ 48 / 2 ^ 8 < ts2 % 2 ^ 48 / 2 ^ 8 →
        Compare (NewWithTimestamp ts1 sig1 rv1) (NewWithTimestamp ts2 sig2 rv2)
          = -1) ∧
    (∀ ts1 ts2 ts3 sig1 sig2 sig3 rv1 rv2 rv3 : ℕ,
        ts1 % 2 ^ 48 / 2 ^ 8 < ts2 % 2 ^ 48 / 2 ^ 8 →
        ts2 % 2 ^ 48 / 2 ^ 8 < ts3 % 2 ^ 48 / 2 ^ 8 →
        SortIDs [NewWithTimestamp ts3 sig3 rv3, NewWithTimestamp ts1 sig1 rv1,
            NewWithTimestamp ts2 sig2 rv2] =
          [NewWithTimestamp ts1 sig1 rv1, NewWithTimestamp ts2 sig2 rv2,
            NewWithTimestamp ts3 sig3 rv3]) := by
  refine ⟨compare_new_lt, ?_⟩
  intro ts1 ts2 ts3 sig1 sig2 sig3 rv1 rv2 rv3 h12 h23
  have c12 := compare_new_lt ts1 ts2 sig1 sig2 rv1 rv2 h12
  have c13 := compare_new_lt ts1 ts3 sig1 sig3 rv1 rv3 (h12.trans h23)
  have c23 := compare_new_lt ts2 ts3 sig2 sig3 rv2 rv3 h23
  have c31 := compare_swap c13
  have c32 := compare_swap c23
  have l12 : Less (NewWithTimestamp ts1 sig1 rv1) (NewWithTimestamp ts2 sig2 rv2)
      = true := by simp [Less, c12]
  have l31 : Less (NewWithTimestamp ts3 sig3 rv3) (NewWithTimestamp ts1 sig1 rv1)
      = false := by simp [Less, c31]
  have l32 : Less (NewWithTimestamp ts3 sig3 rv3) (NewWithTimestamp ts2 sig2 rv2)
      = false := by simp [Less, c32]
  simp [SortIDs, sortInsert, l12, l31, l32]

theorem k_sortable_witness :
    Compare (NewWithTimestamp 256 1 2) (NewWithTimestamp 512 3 4) = -1 ∧
    SortIDs [NewWithTimestamp 768 0 0, NewWithTimestamp 256 0 0,
        NewWithTimestamp 512 0 0] =
      [NewWithTimestamp 256 0 0, NewWithTimestamp 512 0 0,
        NewWithTimestamp 768 0 0] :=
  ⟨k_sortable.1 256 512 1 3 2 4 (by decide),
   k_sortable.2 256 512 768 0 0 0 0 0 0 (by decide) (by decide)⟩

/-- C8: `IsNil` holds exactly when all 15 bytes are zero; the JSON form of the
nil identifier is the unquoted 4-byte token `null` while every non-nil
identifier serializes as a quoted 24-character token; and parsing `null`
yields an identifier that is nil. -/
theorem nil_handling :
    (∀ id : List ℕ, id.length = rawLen → (IsNil id = true ↔ ∀ b ∈ id, b = 0)) ∧
    MarshalJSON nilID = strBytes "null" ∧
    (∀ id : List ℕ, id.length = rawLen → id ≠ nilID →
        (MarshalJSON id).length = encodedLen + 2 ∧
        (MarshalJSON id).head? = some 34 ∧
        (MarshalJSON id).getLast? = some 34) ∧
    UnmarshalJSON (strBytes "null") = JsonResult.ok nilID ∧
    IsNil nilID = true := by
  refine ⟨?_, by decide, ?_, by decide, by decide⟩
  · intro id hlen
    rw [IsNil, beq_iff_eq, nilID, List.eq_replicate_iff]
    simp [hlen, rawLen]
  · intro id hlen hne
    have hq : MarshalJSON id = 34 :: encode id ++ [34] := by
      rw [MarshalJSON, if_neg hne]
    have he := encode_length id hlen
    refine ⟨by simp [hq, he], by simp [hq], ?_⟩
    rw [hq]
    show ((34 :: encode id) ++ [34]).getLast? = some 34
    rw [List.getLast?_concat]

theorem nil_handling_witness :
    (IsNil (List.replicate 15 0) = true ↔
      ∀ b ∈ List.replicate 15 (0 : ℕ), b = 0) ∧
    ((MarshalJSON (List.replicate 14 0 ++ [1])).length = encodedLen + 2 ∧
      (MarshalJSON (List.replicate 14 0 ++ [1])).head? = some 34 ∧
      (MarshalJSON (List.replicate 14 0 ++ [1])).getLast? = some 34) :=
  ⟨nil_handling.1 _ (by decide),
   nil_handling.2.2.1 _ (by decide) (by decide)⟩

/-- C9 counterexample: the 24-zero text decodes to the nil identifier with no
error through `Scan`, although it is not the absent/null input shape. -/
theorem error_propagation_cex :
    Scan (ScanValue.str (strBytes "000000000000000000000000")) =
      ScanResult.ok nilID := by decide

/-- C9 amended: every decode path returns a typed error on invalid input and
never returns the nil identifier as a success for a failed parse; the inputs
that decode to nil without error are the absent/null input and the valid
text encodings of the nil identifier itself (and the unique such text is the
encoding of nil, the 24-zero string). -/
theorem error_propagation_amended :
    (∀ s, UnmarshalText s = none → Scan (ScanValue.str s) = ScanResult.invalid) ∧
    (∀ b, UnmarshalText b = none →
        Scan (ScanValue.byteSlice b) = ScanResult.invalid) ∧
    Scan ScanValue.null = ScanResult.ok nilID ∧
    Scan ScanValue.other = ScanResult.typeMismatch ∧
    (∀ s, UnmarshalText s = some nilID → s = encode nilID) := by
  refine ⟨fun s hs => by simp [Scan, hs], fun b hb => by simp [Scan, hb],
    rfl, rfl, fun s hs => ?_⟩
  have hlen : s.length = encodedLen := by
    by_contra h
    rw [UnmarshalText, if_pos h] at hs
    exact Option.noConfusion hs
  have hany : s.any (fun c => dec c == 255) = false := by
    cases hb : s.any (fun c => dec c == 255)
    · rfl
    · rw [UnmarshalText, if_neg (by simp [hlen]), if_pos (by simp [hb])] at hs
      exact Option.noConfusion hs
  have hmem : ∀ c ∈ s, c ∈ charsetBytes := by
    intro c hc
    apply mem_of_dec_ne_255
    have := List.any_eq_false.mp hany c hc
    simpa using this
  obtain ⟨hu, he⟩ := encode_unmarshal s hlen hmem
  have hB : decodeSyms (s.map dec) = nilID := Option.some.inj (hu ▸ hs)
  rw [← he, hB]

theorem error_propagation_witness :
    Scan (ScanValue.str (strBytes "abc")) = ScanResult.invalid ∧
    Scan (ScanValue.byteSlice (strBytes "abc")) = ScanResult.invalid ∧
    strBytes "000000000000000000000000" = encode nilID :=
  ⟨error_propagation_amended.1 _ (by decide),
   error_propagation_amended.2.1 _ (by decide),
   error_propagation_amended.2.2.2.2 _ (by decide)⟩

end Rid
